import Mathlib

/-!
Formal model of the semseg tiered embedding cache (cache.go) and of the
sparse-vector cosine similarity it uses (internal/tfidf/tfidf.go).

Modelling conventions:
* Go `map[string]float64` sparse vectors are association lists with
  first-match lookup (Go maps have unique keys; iteration order is
  nondeterministic, so every iteration over a map is determinised here as
  iteration in list order — all the sums involved are order-independent).
* Go `float64` arithmetic is modelled over exact numbers: vector weights
  and dense-embedding components are rationals, and cosine similarity is
  a real number because the source takes square roots.
* Go slices become Lean lists; state mutation becomes explicit state
  passing.  The background goroutine runs flushL0 / compactL1 serially,
  so they are modelled as state-transforming functions invoked in some
  arbitrary order.
-/

/-- A sparse TF-IDF vector: term/weight pairs with unique terms
(Go `map[string]float64`). -/
abbrev SparseVec := List (String × ℚ)

/-- Go map read `v[w]`: the weight stored for `w`, `0` when absent. -/
def lookup : SparseVec → String → ℚ
  | [], _ => 0
  | (w1, x) :: rest, w => if w1 = w then x else lookup rest w

/-- The terms of a sparse vector. -/
def keys (v : SparseVec) : List String := v.map Prod.fst

/-- The `allWords` union-of-keys set built at the top of CosineSimilarity. -/
def allWords (v1 v2 : SparseVec) : List String := (keys v1 ++ keys v2).dedup

/-- The `dotProduct` accumulator of CosineSimilarity: sum of pointwise
products over the union of terms. -/
def dotProduct (v1 v2 : SparseVec) : ℚ :=
  ((allWords v1 v2).map (fun w => lookup v1 w * lookup v2 w)).sum

/-- The `normA` accumulator of CosineSimilarity (squared norm of `v1`,
summed over the union of terms as the source loop does). -/
def normASq (v1 v2 : SparseVec) : ℚ :=
  ((allWords v1 v2).map (fun w => lookup v1 w * lookup v1 w)).sum

/-- The `normB` accumulator of CosineSimilarity (squared norm of `v2`,
summed over the union of terms as the source loop does). -/
def normBSq (v1 v2 : SparseVec) : ℚ :=
  ((allWords v1 v2).map (fun w => lookup v2 w * lookup v2 w)).sum

/-- tfidf.CosineSimilarity: `0` when either accumulated squared norm is
zero, otherwise `dotProduct / (sqrt normA * sqrt normB)`. -/
noncomputable def CosineSimilarity (v1 v2 : SparseVec) : ℝ :=
  if normASq v1 v2 = 0 ∨ normBSq v1 v2 = 0 then 0
  else (dotProduct v1 v2 : ℝ) /
    (Real.sqrt (normASq v1 v2) * Real.sqrt (normBSq v1 v2))

/-- The squared Euclidean norm of a single sparse vector over its own
terms, as the specification words it. -/
def normOwnSq (v : SparseVec) : ℚ :=
  (((keys v).dedup).map (fun w => lookup v w * lookup v w)).sum

/-- Cosine similarity as worded by the specification: the dot product
over the union of the two term sets divided by the product of the two
Euclidean norms, and exactly `0` when either vector has zero norm. -/
noncomputable def cosineSimilaritySpec (v1 v2 : SparseVec) : ℝ :=
  if normOwnSq v1 = 0 ∨ normOwnSq v2 = 0 then 0
  else (dotProduct v1 v2 : ℝ) /
    (Real.sqrt (normOwnSq v1) * Real.sqrt (normOwnSq v2))

/-! Tiered cache data model (cache.go).  Comparisons of real-valued
similarities against thresholds are undecidable propositions, so the
operations branching on them use classical decidability. -/

open Classical

/-- cacheEntry: a stored sparse key together with its dense embedding. -/
structure cacheEntry where
  tfidfVector : SparseVec
  denseEmbedding : List ℚ
deriving DecidableEq

/-- copyEmbedding: value-level denotation of the defensive slice copy.
On values a copy is the identity; the allocation behaviour of the copy
is modelled separately at the reference level (see the Heap model). -/
def copyEmbedding (e : List ℚ) : List ℚ := e

/-- termScore: a term paired with its weight, the unit of the partial
sort in getTopK. -/
structure termScore where
  term : String
  score : ℚ
deriving DecidableEq

/-- One insertion step of a descending sort by score, determinising
the non-stable sort.Slice call of getTopK. -/
def insertDesc (x : termScore) : List termScore → List termScore
  | [] => [x]
  | y :: ys => if y.score < x.score then x :: y :: ys else y :: insertDesc x ys

/-- Sort a score list in non-increasing score order. -/
def sortDesc (l : List termScore) : List termScore := l.foldr insertDesc []

/-- getTopK: all terms when the vector has at most `k` terms, otherwise
the terms of the `k` highest-weighted entries. -/
def getTopK (vector : SparseVec) (k : ℕ) : List String :=
  if vector.length ≤ k then vector.map Prod.fst
  else ((sortDesc (vector.map (fun p => ⟨p.1, p.2⟩))).take k).map termScore.term

/-- A segment index: an association list from term to its posting list
(Go `map[string][]int` with unique keys). -/
abbrev Index := List (String × List ℕ)

/-- Go map read with default: the posting list of `t`, `[]` when the term
is absent (so iterating it is a no-op, matching the `ok` check). -/
def postings : Index → String → List ℕ
  | [], _ => []
  | (t1, l) :: rest, t => if t1 = t then l else postings rest t

/-- The statement `index[term] = append(index[term], i)` of buildIndex. -/
def indexAdd : Index → String → ℕ → Index
  | [], t, i => [(t, [i])]
  | (t1, l) :: rest, t, i =>
    if t1 = t then (t1, l ++ [i]) :: rest else (t1, l) :: indexAdd rest t i

/-- The inner loop of buildIndex: post entry position `i` under each of
the entry's top terms. -/
def addEntryTerms (idx : Index) (i : ℕ) (terms : List String) : Index :=
  terms.foldl (fun a t => indexAdd a t i) idx

/-- buildIndex: for each entry position, post it under the entry's
top-K terms. -/
def buildIndex (entries : List cacheEntry) (k : ℕ) : Index :=
  entries.enum.foldl
    (fun idx p => addEntryTerms idx p.1 (getTopK p.2.tfidfVector k)) []

/-- l1Segment: an immutable entry sequence with its term index. -/
structure l1Segment where
  entries : List cacheEntry
  index : Index
deriving DecidableEq

/-- Tunables of cache.go. -/
def defaultTopK : ℕ := 16

/-- L0 size at which Set signals a flush. -/
def l0FlushThreshold : ℕ := 512

/-- Segment count beyond which a flush signals compaction, and below
which compactL1 returns without working. -/
def l1CompactionTrigger : ℕ := 4

/-- Number of oldest segments merged by one compaction. -/
def l1CompactionTargetCount : ℕ := 2

/-- InMemoryCache state: the L0 buffer, the L1 segment list, the
neighbor counter (atomic.Int64) and the configured top-K width.  The
trigger channels are modelled by invoking flushL0/compactL1 as explicit
steps (the background worker runs them serially). -/
structure InMemoryCache where
  l0Entries : List cacheEntry
  l1Segments : List l1Segment
  itemsWithNeighbors : ℤ
  topK : ℕ
deriving DecidableEq

/-- NewInMemoryCache: empty tiers, zero counter, default top-K. -/
def NewInMemoryCache : InMemoryCache :=
  { l0Entries := [], l1Segments := [], itemsWithNeighbors := 0,
    topK := defaultTopK }

/-- The neighbor scan loop at the top of Set (with its early break). -/
def l0HasNeighbor (key : SparseVec) (t : ℝ) : List cacheEntry → Prop
  | [] => False
  | e :: rest =>
    CosineSimilarity key e.tfidfVector ≥ t ∨ l0HasNeighbor key t rest

/-- Set: scan L0 for a neighbor of the new key and bump the counter if
one exists, then append the entry (key stored as passed, embedding
deep-copied).  The flush signal it may raise is modelled by flushL0
being applicable as a separate step. -/
noncomputable def InMemoryCache.Set (c : InMemoryCache) (key : SparseVec)
    (embedding : List ℚ) (similarityThreshold : ℝ) : InMemoryCache :=
  { c with
    itemsWithNeighbors :=
      if l0HasNeighbor key similarityThreshold c.l0Entries then
        c.itemsWithNeighbors + 1
      else c.itemsWithNeighbors,
    l0Entries := c.l0Entries ++ [⟨key, copyEmbedding embedding⟩] }

/-- AnalyzeSimilarity: returns the counter; the argument is ignored. -/
def InMemoryCache.AnalyzeSimilarity (c : InMemoryCache) (_threshold : ℝ) : ℤ :=
  c.itemsWithNeighbors

/-- The linear L0 scan of Find. -/
noncomputable def findL0 (key : SparseVec) (t : ℝ) :
    List cacheEntry → Option (List ℚ)
  | [] => none
  | e :: rest =>
    if CosineSimilarity key e.tfidfVector ≥ t then
      some (copyEmbedding e.denseEmbedding)
    else findL0 key t rest

/-- The candidate set Find builds for one segment: the union (as a
deduplicated list) of the posting lists of the query's top terms. -/
def candidatesOf (seg : l1Segment) (topTerms : List String) : List ℕ :=
  (topTerms.map (fun t => postings seg.index t)).flatten.dedup

/-- The verification loop of Find over one segment's candidate set:
each candidate position is dereferenced and kept only if the exact
cosine check passes.  (In reachable states every candidate is in range;
an out-of-range position is skipped, see buildIndex bounds.) -/
noncomputable def scanCandidates (key : SparseVec) (t : ℝ)
    (entries : List cacheEntry) : List ℕ → Option (List ℚ)
  | [] => none
  | i :: rest =>
    match entries.get? i with
    | some e =>
      if CosineSimilarity key e.tfidfVector ≥ t then
        some (copyEmbedding e.denseEmbedding)
      else scanCandidates key t entries rest
    | none => scanCandidates key t entries rest

/-- The segment loop of Find; the caller passes the segment list newest
first. -/
noncomputable def findL1 (key : SparseVec) (t : ℝ) (topTerms : List String) :
    List l1Segment → Option (List ℚ)
  | [] => none
  | seg :: rest =>
    match scanCandidates key t seg.entries (candidatesOf seg topTerms) with
    | some r => some r
    | none => findL1 key t topTerms rest

/-- Find: linear scan of L0, then the indexed probe of the L1 segments
from newest to oldest. -/
noncomputable def InMemoryCache.Find (c : InMemoryCache) (key : SparseVec)
    (threshold : ℝ) : Option (List ℚ) :=
  match findL0 key threshold c.l0Entries with
  | some r => some r
  | none => findL1 key threshold (getTopK key c.topK) c.l1Segments.reverse

/-- flushL0: drain L0 (if non-empty) into a freshly indexed segment
appended to the L1 list. -/
def InMemoryCache.flushL0 (c : InMemoryCache) : InMemoryCache :=
  if c.l0Entries.isEmpty then c
  else
    { c with
      l0Entries := [],
      l1Segments :=
        c.l1Segments ++ [⟨c.l0Entries, buildIndex c.l0Entries c.topK⟩] }

/-- compactL1: when at least l1CompactionTrigger segments exist, merge
the oldest l1CompactionTargetCount of them into one reindexed segment
placed at the front, keeping the rest in order. -/
def InMemoryCache.compactL1 (c : InMemoryCache) : InMemoryCache :=
  if c.l1Segments.length < l1CompactionTrigger then c
  else
    let merged :=
      ((c.l1Segments.take l1CompactionTargetCount).map l1Segment.entries).flatten
    { c with
      l1Segments :=
        ⟨merged, buildIndex merged c.topK⟩ ::
          c.l1Segments.drop l1CompactionTargetCount }

/-- An entry (key, embedding) is stored in the cache: present in L0 or
in some L1 segment. -/
def Stored (c : InMemoryCache) (k : SparseVec) (e : List ℚ) : Prop :=
  (⟨k, e⟩ : cacheEntry) ∈ c.l0Entries ∨
    ∃ seg ∈ c.l1Segments, (⟨k, e⟩ : cacheEntry) ∈ seg.entries

/-- The multiset of all entries visible to Find. -/
def entriesMS (c : InMemoryCache) : Multiset cacheEntry :=
  (c.l0Entries : Multiset cacheEntry) +
    (c.l1Segments.map (fun s => (s.entries : Multiset cacheEntry))).sum

/-- A segment is well formed when its index is the one buildIndex
produces for its entries at width `k`. -/
def SegWF (k : ℕ) (seg : l1Segment) : Prop :=
  seg.index = buildIndex seg.entries k

/-- Cache well-formedness: positive top-K width and every segment
indexed by buildIndex at that width.  Every state reachable from
NewInMemoryCache by Set / flushL0 / compactL1 satisfies it. -/
def CacheWF (c : InMemoryCache) : Prop :=
  0 < c.topK ∧ ∀ seg ∈ c.l1Segments, SegWF c.topK seg

/-! Close behaviour (cache.go): Go panics when a channel is closed
twice, so close state is modelled explicitly and a panic is `none`. -/

/-- The close state of a Go channel. -/
structure GoChan where
  closed : Bool
deriving DecidableEq

/-- close(ch): panics (none) when the channel is already closed. -/
def closeChan (ch : GoChan) : Option GoChan :=
  if ch.closed then none else some ⟨true⟩

/-- The channel InMemoryCache.Close touches. -/
structure CacheChans where
  closeWorker : GoChan
deriving DecidableEq

/-- InMemoryCache.Close: just close(c.closeWorker). -/
def closeCache (s : CacheChans) : Option CacheChans :=
  (closeChan s.closeWorker).map (fun ch => ⟨ch⟩)

/-- The channels adaptiveCacheManager.Close touches: the wrapped
cache's closeWorker (via m.cache.Close()), m.setQueue, m.tickerStop. -/
structure MgrChans where
  cacheCloseWorker : GoChan
  setQueue : GoChan
  tickerStop : GoChan
deriving DecidableEq

/-- adaptiveCacheManager.Close: m.cache.Close(), then the no-op
startOnce.Do, then close(m.setQueue), then a select that receives from
m.tickerStop when it is already closed and otherwise (default branch)
closes it. -/
def closeMgr (s : MgrChans) : Option MgrChans :=
  match closeChan s.cacheCloseWorker with
  | none => none
  | some cw =>
    match closeChan s.setQueue with
    | none => none
    | some sq =>
      if s.tickerStop.closed then some ⟨cw, sq, s.tickerStop⟩
      else
        match closeChan s.tickerStop with
        | none => none
        | some ts => some ⟨cw, sq, ts⟩

/-! Reference-level model of Set's copy behaviour (cache.go 205-210):
Go maps and slices are reference values, so a heap tracks their cells
and the entry records which cells it stores. -/

/-- A heap of Go map values and slice values addressed by allocation
index. -/
structure Heap where
  maps : List SparseVec
  slices : List (List ℚ)
deriving DecidableEq

/-- Dereference a map cell. -/
def readMap (h : Heap) (r : ℕ) : SparseVec := (h.maps.get? r).getD []

/-- Dereference a slice cell. -/
def readSlice (h : Heap) (r : ℕ) : List ℚ := (h.slices.get? r).getD []

/-- Mutate a map cell in place (what a caller can do to its key map
after Set returns). -/
def writeMap (h : Heap) (r : ℕ) (v : SparseVec) : Heap :=
  ⟨h.maps.set r v, h.slices⟩

/-- Mutate a slice cell in place (what a caller can do to its embedding
slice after Set returns). -/
def writeSlice (h : Heap) (r : ℕ) (v : List ℚ) : Heap :=
  ⟨h.maps, h.slices.set r v⟩

/-- Which heap cells one stored L0 entry references. -/
structure entryRefs where
  keyRef : ℕ
  embRef : ℕ
deriving DecidableEq

/-- The append path of Set at the reference level: `embeddingCopy :=
make(...); copy(embeddingCopy, embedding)` allocates a fresh slice cell
holding the embedding's current value, and the appended entry stores
the embedding by that fresh cell but the key map by the caller's own
reference (`tfidfVector: key` — no copy). -/
def setAppend (h : Heap) (l0 : List entryRefs) (key emb : ℕ) :
    Heap × List entryRefs :=
  (⟨h.maps, h.slices ++ [readSlice h emb]⟩,
    l0 ++ [⟨key, h.slices.length⟩])

/-! Adaptive cache manager (cache.go): state and one-step transitions
of the caller-facing operations, the async writer, the activation
ticker and the background reorganizer. -/

/-- Capacity of the write queue: make(chan adaptiveCacheEntry, 1024). -/
def setQueueCapacity : ℕ := 1024

/-- QueueSet: the non-blocking send with default branch — enqueue when
a slot is free, silently drop the entry otherwise. -/
def queueSet (queue : List (SparseVec × List ℚ)) (k : SparseVec)
    (e : List ℚ) : List (SparseVec × List ℚ) :=
  if queue.length < setQueueCapacity then queue ++ [(k, e)] else queue

/-- adaptiveCacheManager state: the one-way activation flag, the
bounded write queue, the wrapped cache, and the thresholds recorded by
Start. -/
structure MgrState where
  activated : Bool
  setQueue : List (SparseVec × List ℚ)
  cache : InMemoryCache
  similarityThreshold : ℝ
  activationThreshold : ℤ

/-- NewAdaptiveCacheManager combined with the one-time Start: the flag
starts false (atomic.Bool zero value) and the queue empty. -/
def NewAdaptiveCacheManagerState (c : InMemoryCache)
    (simThreshold : ℝ) (actThreshold : ℤ) : MgrState :=
  ⟨false, [], c, simThreshold, actThreshold⟩

/-- One step by any of the concurrent roles acting on the manager. -/
inductive MgrStep where
  | queueSetStep (k : SparseVec) (e : List ℚ)
  | directSetStep (k : SparseVec) (e : List ℚ) (t : ℝ)
  | findStep (k : SparseVec) (t : ℝ)
  | analyzeStep (t : ℝ)
  | writerStep
  | tickerStep
  | flushStep
  | compactStep

/-- The manager transition function: QueueSet; the synchronous Set
proxy; the read-only Find and AnalyzeSimilarity proxies; one dequeue of
the async writer (which calls Set with the configured threshold); one
poll of the activation ticker (which flips the flag exactly when not
yet activated and the counter meets the threshold); and the
reorganizer's flush and compaction steps on the wrapped cache. -/
noncomputable def mgrStep (s : MgrState) : MgrStep → MgrState
  | .queueSetStep k e => { s with setQueue := queueSet s.setQueue k e }
  | .directSetStep k e t => { s with cache := s.cache.Set k e t }
  | .findStep _ _ => s
  | .analyzeStep _ => s
  | .writerStep =>
    match s.setQueue with
    | [] => s
    | (k, e) :: rest =>
      { s with setQueue := rest,
               cache := s.cache.Set k e s.similarityThreshold }
  | .tickerStep =>
    if s.activated then s
    else if s.activationThreshold ≤
        s.cache.AnalyzeSimilarity s.similarityThreshold then
      { s with activated := true }
    else s
  | .flushStep => { s with cache := s.cache.flushL0 }
  | .compactStep => { s with cache := s.cache.compactL1 }

lemma lookup_eq_zero_of_not_mem {v : SparseVec} {w : String}
    (h : w ∉ keys v) : lookup v w = 0 := by
  induction v with
  | nil => rfl
  | cons p rest ih =>
    simp only [keys, List.map_cons, List.mem_cons] at h
    push_neg at h
    rw [lookup, if_neg (fun he => h.1 he.symm)]
    exact ih (by simpa [keys] using h.2)

lemma sum_map_dedup_eq_sum_toFinset (f : String → ℚ) (l : List String) :
    ((l.dedup.map f).sum) = l.toFinset.sum f := by
  have h1 : l.dedup.toFinset = l.toFinset := by
    apply Finset.ext
    intro a
    simp [List.mem_toFinset, List.mem_dedup]
  rw [← h1, List.sum_toFinset f (List.nodup_dedup l)]

lemma sum_union_restrict (f : String → ℚ) (l1 l2 : List String)
    (hvanish : ∀ w, w ∉ l1 → f w = 0) :
    (((l1 ++ l2).dedup.map f).sum) = ((l1.dedup.map f).sum) := by
  rw [sum_map_dedup_eq_sum_toFinset, sum_map_dedup_eq_sum_toFinset,
    List.toFinset_append]
  refine (Finset.sum_subset Finset.subset_union_left ?_).symm
  intro w _ hw
  exact hvanish w (fun hmem => hw (List.mem_toFinset.mpr hmem))

lemma normASq_eq_normOwnSq (v1 v2 : SparseVec) :
    normASq v1 v2 = normOwnSq v1 := by
  unfold normASq normOwnSq allWords
  exact sum_union_restrict _ (keys v1) (keys v2)
    (fun w hw => by rw [lookup_eq_zero_of_not_mem hw, mul_zero])

lemma normBSq_eq_normOwnSq (v1 v2 : SparseVec) :
    normBSq v1 v2 = normOwnSq v2 := by
  unfold normBSq normOwnSq allWords
  have hperm : ((keys v1 ++ keys v2).dedup.map
      (fun w => lookup v2 w * lookup v2 w)).sum
      = ((keys v2 ++ keys v1).dedup.map
      (fun w => lookup v2 w * lookup v2 w)).sum := by
    rw [sum_map_dedup_eq_sum_toFinset, sum_map_dedup_eq_sum_toFinset,
      List.toFinset_append, List.toFinset_append, Finset.union_comm]
  rw [hperm]
  exact sum_union_restrict _ (keys v2) (keys v1)
    (fun w hw => by rw [lookup_eq_zero_of_not_mem hw, mul_zero])

/-- C9.  Cosine similarity definition: the source computation over the
union of terms (with the squared norms also accumulated over the union)
equals the specification's normalized dot product with each Euclidean
norm taken over the vector's own terms, and it is exactly `0` whenever
either vector has zero norm — in particular whenever either is empty. -/
theorem cosine_similarity_matches_spec :
    (∀ v1 v2 : SparseVec, CosineSimilarity v1 v2 = cosineSimilaritySpec v1 v2)
    ∧ (∀ v : SparseVec, CosineSimilarity v [] = 0 ∧ CosineSimilarity [] v = 0) := by
  constructor
  · intro v1 v2
    unfold CosineSimilarity cosineSimilaritySpec
    rw [normASq_eq_normOwnSq, normBSq_eq_normOwnSq]
  · intro v
    constructor
    · unfold CosineSimilarity
      rw [if_pos]
      right
      rw [normBSq_eq_normOwnSq]
      rfl
    · unfold CosineSimilarity
      rw [if_pos]
      left
      rw [normASq_eq_normOwnSq]
      rfl

/-! Basic facts about cosine similarity and Set. -/

lemma normASq_self_nonneg (v : SparseVec) : 0 ≤ normASq v v := by
  apply List.sum_nonneg
  intro x hx
  simp only [List.mem_map] at hx
  obtain ⟨w, _, rfl⟩ := hx
  exact mul_self_nonneg _

lemma cosineSimilarity_self {v : SparseVec} (h : normASq v v ≠ 0) :
    CosineSimilarity v v = 1 := by
  have hd : dotProduct v v = normASq v v := rfl
  have hb : normBSq v v = normASq v v := rfl
  have hpos : (0 : ℝ) ≤ (normASq v v : ℝ) := by
    exact_mod_cast normASq_self_nonneg v
  unfold CosineSimilarity
  rw [if_neg (by rw [hb]; tauto), hd, hb, Real.mul_self_sqrt hpos]
  exact div_self (by exact_mod_cast h)

lemma l0HasNeighbor_nil (k : SparseVec) (t : ℝ) : ¬ l0HasNeighbor k t [] :=
  fun h => h

lemma l0HasNeighbor_cons_self {k : SparseVec} {t : ℝ} (e0 : List ℚ)
    (rest : List cacheEntry) (h : CosineSimilarity k k ≥ t) :
    l0HasNeighbor k t (⟨k, e0⟩ :: rest) :=
  Or.inl h

lemma Set_l0Entries (c : InMemoryCache) (k : SparseVec) (e : List ℚ) (t : ℝ) :
    (c.Set k e t).l0Entries = c.l0Entries ++ [⟨k, copyEmbedding e⟩] := rfl

lemma Set_l1Segments (c : InMemoryCache) (k : SparseVec) (e : List ℚ)
    (t : ℝ) : (c.Set k e t).l1Segments = c.l1Segments := rfl

lemma Set_topK (c : InMemoryCache) (k : SparseVec) (e : List ℚ) (t : ℝ) :
    (c.Set k e t).topK = c.topK := rfl

lemma Set_counter (c : InMemoryCache) (k : SparseVec) (e : List ℚ) (t : ℝ) :
    (c.Set k e t).itemsWithNeighbors =
      if l0HasNeighbor k t c.l0Entries then c.itemsWithNeighbors + 1
      else c.itemsWithNeighbors := rfl

/-- C6.  Neighbor counter exact value: five Sets of the key vector
with term a and weight 1 at similarity threshold 0.99 on a fresh cache
leave AnalyzeSimilarity(0.99) at exactly 4 — the first insertion sees an
empty L0, every later one sees a similarity-1.0 neighbor already there. -/
theorem analyze_similarity_five_same_key :
    InMemoryCache.AnalyzeSimilarity
      (InMemoryCache.Set (InMemoryCache.Set (InMemoryCache.Set
        (InMemoryCache.Set (InMemoryCache.Set NewInMemoryCache
          [("a", 1)] [1] 0.99)
        [("a", 1)] [1] 0.99) [("a", 1)] [1] 0.99) [("a", 1)] [1] 0.99)
      [("a", 1)] [1] 0.99) 0.99 = 4 := by
  have hge : CosineSimilarity [("a", 1)] [("a", 1)] ≥ (0.99 : ℝ) := by
    rw [cosineSimilarity_self (v := [("a", 1)])
      (by norm_num [normASq, allWords, keys, lookup, List.dedup])]
    norm_num
  have hstep : ∀ c : InMemoryCache, c.l0Entries ≠ [] →
      (∀ en ∈ c.l0Entries, en.tfidfVector = [("a", 1)]) →
      (c.Set [("a", 1)] [1] 0.99).itemsWithNeighbors =
        c.itemsWithNeighbors + 1 := by
    intro c hne hall
    rw [Set_counter, if_pos]
    cases hl : c.l0Entries with
    | nil => exact absurd hl hne
    | cons e0 rest =>
      have h0 : e0.tfidfVector = [("a", 1)] := hall e0 (by rw [hl]; simp)
      show CosineSimilarity [("a", 1)] e0.tfidfVector ≥ _ ∨ _
      left
      rw [h0]
      exact hge
  have hL0 : ∀ c : InMemoryCache,
      (∀ en ∈ c.l0Entries, en.tfidfVector = [("a", 1)]) →
      ∀ en ∈ (c.Set [("a", 1)] [1] 0.99).l0Entries,
        en.tfidfVector = [("a", 1)] := by
    intro c hall en hmem
    rw [Set_l0Entries] at hmem
    rcases List.mem_append.mp hmem with h | h
    · exact hall en h
    · rw [List.mem_singleton.mp h]
  have hbase : ∀ en ∈ NewInMemoryCache.l0Entries,
      en.tfidfVector = [("a", 1)] := by
    intro en hmem
    exact absurd hmem (by simp [NewInMemoryCache])
  have hne1 : ∀ c : InMemoryCache,
      (c.Set [("a", 1)] [1] 0.99).l0Entries ≠ [] := by
    intro c
    rw [Set_l0Entries]
    simp
  have h1 : (InMemoryCache.Set NewInMemoryCache
      [("a", 1)] [1] 0.99).itemsWithNeighbors = 0 := by
    rw [Set_counter, show NewInMemoryCache.l0Entries = [] from rfl,
      if_neg (l0HasNeighbor_nil _ _), show NewInMemoryCache.itemsWithNeighbors = 0 from rfl]
  have hl01 := hL0 _ hbase
  have hl02 := hL0 _ hl01
  have hl03 := hL0 _ hl02
  have hl04 := hL0 _ hl03
  have h2 := hstep _ (hne1 _) hl01
  have h3 := hstep _ (hne1 _) hl02
  have h4 := hstep _ (hne1 _) hl03
  have h5 := hstep _ (hne1 _) hl04
  show (InMemoryCache.Set (InMemoryCache.Set (InMemoryCache.Set
        (InMemoryCache.Set (InMemoryCache.Set NewInMemoryCache
          [("a", 1)] [1] 0.99)
        [("a", 1)] [1] 0.99) [("a", 1)] [1] 0.99) [("a", 1)] [1] 0.99)
      [("a", 1)] [1] 0.99).itemsWithNeighbors = 4
  rw [h5, h4, h3, h2, h1]
  norm_num

/-! Soundness of Find: every hit comes from a stored entry that passed
the exact cosine check. -/

lemma findL0_sound {q : SparseVec} {t : ℝ} {l0 : List cacheEntry}
    {out : List ℚ} (h : findL0 q t l0 = some out) :
    ∃ en ∈ l0, CosineSimilarity q en.tfidfVector ≥ t ∧
      out = copyEmbedding en.denseEmbedding := by
  induction l0 with
  | nil => simp [findL0] at h
  | cons e rest ih =>
    rw [findL0] at h
    by_cases hc : CosineSimilarity q e.tfidfVector ≥ t
    · rw [if_pos hc] at h
      exact ⟨e, by simp, hc, (Option.some.inj h).symm⟩
    · rw [if_neg hc] at h
      obtain ⟨en, hmem, hge, hout⟩ := ih h
      exact ⟨en, by simp [hmem], hge, hout⟩

lemma scanCandidates_sound {q : SparseVec} {t : ℝ}
    {entries : List cacheEntry} {cands : List ℕ} {out : List ℚ}
    (h : scanCandidates q t entries cands = some out) :
    ∃ en ∈ entries, CosineSimilarity q en.tfidfVector ≥ t ∧
      out = copyEmbedding en.denseEmbedding := by
  induction cands with
  | nil => simp [scanCandidates] at h
  | cons i rest ih =>
    rw [scanCandidates] at h
    cases hg : entries.get? i with
    | none =>
      rw [hg] at h
      exact ih h
    | some e =>
      rw [hg] at h
      dsimp only at h
      by_cases hc : CosineSimilarity q e.tfidfVector ≥ t
      · rw [if_pos hc] at h
        exact ⟨e, List.get?_mem hg, hc, (Option.some.inj h).symm⟩
      · rw [if_neg hc] at h
        exact ih h

lemma findL1_sound {q : SparseVec} {t : ℝ} {topTerms : List String}
    {segs : List l1Segment} {out : List ℚ}
    (h : findL1 q t topTerms segs = some out) :
    ∃ seg ∈ segs, ∃ en ∈ seg.entries,
      CosineSimilarity q en.tfidfVector ≥ t ∧
        out = copyEmbedding en.denseEmbedding := by
  induction segs with
  | nil => simp [findL1] at h
  | cons s rest ih =>
    rw [findL1] at h
    cases hs : scanCandidates q t s.entries (candidatesOf s topTerms) with
    | some r =>
      rw [hs] at h
      obtain ⟨en, hmem, hge, hout⟩ := scanCandidates_sound hs
      exact ⟨s, by simp, en, hmem, hge, by rw [← Option.some.inj h, hout]⟩
    | none =>
      rw [hs] at h
      obtain ⟨seg, hseg, rest2⟩ := ih h
      exact ⟨seg, by simp [hseg], rest2⟩

lemma find_sound {c : InMemoryCache} {q : SparseVec} {t : ℝ}
    {out : List ℚ} (h : c.Find q t = some out) :
    ∃ k e, Stored c k e ∧ CosineSimilarity q k ≥ t ∧
      out = copyEmbedding e := by
  unfold InMemoryCache.Find at h
  cases h0 : findL0 q t c.l0Entries with
  | some r =>
    rw [h0] at h
    obtain ⟨en, hmem, hge, hout⟩ := findL0_sound h0
    refine ⟨en.tfidfVector, en.denseEmbedding, Or.inl ?_, hge, ?_⟩
    · exact hmem
    · rw [← Option.some.inj h, hout]
  | none =>
    rw [h0] at h
    obtain ⟨seg, hseg, en, hmem, hge, hout⟩ := findL1_sound h
    exact ⟨en.tfidfVector, en.denseEmbedding,
      Or.inr ⟨seg, List.mem_reverse.mp hseg, hmem⟩, hge, hout⟩

/-- C2.  No false positives: whenever Find answers with an embedding,
some entry stored in the cache (L0 or any L1 segment) has cosine
similarity at least the threshold to the query, and the answer is the
(copied) embedding stored with such a key — every candidate passed the
exact cosine check. -/
theorem find_no_false_positives (c : InMemoryCache) (q : SparseVec)
    (t : ℝ) (out : List ℚ) (h : c.Find q t = some out) :
    ∃ k e, Stored c k e ∧ CosineSimilarity q k ≥ t ∧
      out = copyEmbedding e :=
  find_sound h

/-- Witness for find_no_false_positives: a one-entry cache where Find
at threshold 1 succeeds on the stored key itself. -/
theorem find_no_false_positives_witness :
    InMemoryCache.Find ⟨[⟨[("a", 1)], [5]⟩], [], 0, 16⟩ [("a", 1)] 1
        = some [5] ∧
      ∃ k e, Stored ⟨[⟨[("a", 1)], [5]⟩], [], 0, 16⟩ k e ∧
        CosineSimilarity [("a", 1)] k ≥ 1 ∧ [5] = copyEmbedding e := by
  have hcos : CosineSimilarity [("a", 1)] [("a", 1)] ≥ (1 : ℝ) := by
    rw [cosineSimilarity_self (v := [("a", 1)])
      (by norm_num [normASq, allWords, keys, lookup, List.dedup])]
  have hfind : InMemoryCache.Find ⟨[⟨[("a", 1)], [5]⟩], [], 0, 16⟩
      [("a", 1)] 1 = some [5] := by
    unfold InMemoryCache.Find
    rw [show findL0 [("a", 1)] 1 [⟨[("a", 1)], [5]⟩] = some [5] from by
      rw [findL0, if_pos hcos]
      rfl]
  exact ⟨hfind, find_no_false_positives _ _ _ _ hfind⟩

/-! Completeness machinery: when a similar entry is reachable, Find
answers. -/

lemma findL0_isSome {q : SparseVec} {t : ℝ} {l0 : List cacheEntry}
    {en : cacheEntry} (hmem : en ∈ l0)
    (hge : CosineSimilarity q en.tfidfVector ≥ t) :
    (findL0 q t l0).isSome := by
  induction l0 with
  | nil => cases hmem
  | cons e rest ih =>
    rw [findL0]
    by_cases hc : CosineSimilarity q e.tfidfVector ≥ t
    · rw [if_pos hc]
      rfl
    · rw [if_neg hc]
      rcases List.mem_cons.mp hmem with h | h
      · exact absurd (h ▸ hge) hc
      · exact ih h

lemma scanCandidates_isSome {q : SparseVec} {t : ℝ}
    {entries : List cacheEntry} {cands : List ℕ} {i : ℕ} {en : cacheEntry}
    (hcand : i ∈ cands) (hget : entries.get? i = some en)
    (hge : CosineSimilarity q en.tfidfVector ≥ t) :
    (scanCandidates q t entries cands).isSome := by
  induction cands with
  | nil => cases hcand
  | cons j rest ih =>
    rw [scanCandidates]
    cases hg : entries.get? j with
    | none =>
      dsimp only
      rcases List.mem_cons.mp hcand with h | h
      · rw [h] at hget
        rw [hget] at hg
        cases hg
      · exact ih h
    | some e =>
      dsimp only
      by_cases hc : CosineSimilarity q e.tfidfVector ≥ t
      · rw [if_pos hc]
        rfl
      · rw [if_neg hc]
        rcases List.mem_cons.mp hcand with h | h
        · rw [h] at hget
          rw [hget] at hg
          cases hg
          exact absurd hge hc
        · exact ih h

lemma findL1_isSome {q : SparseVec} {t : ℝ} {topTerms : List String}
    {segs : List l1Segment} {seg : l1Segment} (hmem : seg ∈ segs)
    (hscan : (scanCandidates q t seg.entries
      (candidatesOf seg topTerms)).isSome) :
    (findL1 q t topTerms segs).isSome := by
  induction segs with
  | nil => cases hmem
  | cons s rest ih =>
    rw [findL1]
    cases hs : scanCandidates q t s.entries (candidatesOf s topTerms) with
    | some r => rfl
    | none =>
      dsimp only
      rcases List.mem_cons.mp hmem with h | h
      · rw [h, hs] at hscan
        cases hscan
      · exact ih h

/-! Posting-list structure of buildIndex. -/

lemma postings_indexAdd_self (idx : Index) (t : String) (i : ℕ) :
    i ∈ postings (indexAdd idx t i) t := by
  induction idx with
  | nil => simp [indexAdd, postings]
  | cons p rest ih =>
    obtain ⟨t1, l⟩ := p
    rw [indexAdd]
    by_cases h : t1 = t
    · rw [if_pos h, postings, if_pos h]
      simp
    · rw [if_neg h, postings, if_neg h]
      exact ih

lemma postings_indexAdd_mono {idx : Index} {t : String} {i : ℕ}
    (t2 : String) (j : ℕ) (h : i ∈ postings idx t) :
    i ∈ postings (indexAdd idx t2 j) t := by
  induction idx with
  | nil => cases h
  | cons p rest ih =>
    obtain ⟨t1, l⟩ := p
    rw [indexAdd]
    by_cases h1 : t1 = t2
    · rw [if_pos h1]
      rw [postings] at h
      by_cases h2 : t1 = t
      · rw [if_pos h2] at h
        rw [postings, if_pos h2]
        exact List.mem_append_left _ h
      · rw [if_neg h2] at h
        rw [postings, if_neg h2]
        exact h
    · rw [if_neg h1]
      rw [postings] at h
      by_cases h2 : t1 = t
      · rw [if_pos h2] at h
        rw [postings, if_pos h2]
        exact h
      · rw [if_neg h2] at h
        rw [postings, if_neg h2]
        exact ih h

lemma postings_indexAdd_sub {idx : Index} {t2 : String} {j : ℕ}
    {t : String} {i : ℕ} (h : i ∈ postings (indexAdd idx t2 j) t) :
    i ∈ postings idx t ∨ i = j := by
  induction idx with
  | nil =>
    rw [indexAdd, postings] at h
    by_cases h2 : t2 = t
    · rw [if_pos h2] at h
      right
      simpa using h
    · rw [if_neg h2] at h
      cases h
  | cons p rest ih =>
    obtain ⟨t1, l⟩ := p
    rw [indexAdd] at h
    by_cases h1 : t1 = t2
    · rw [if_pos h1, postings] at h
      by_cases h2 : t1 = t
      · rw [if_pos h2] at h
        rcases List.mem_append.mp h with h3 | h3
        · left
          rw [postings, if_pos h2]
          exact h3
        · right
          simpa using h3
      · rw [if_neg h2] at h
        left
        rw [postings, if_neg h2]
        exact h
    · rw [if_neg h1, postings] at h
      by_cases h2 : t1 = t
      · rw [if_pos h2] at h
        left
        rw [postings, if_pos h2]
        exact h
      · rw [if_neg h2] at h
        rcases ih h with h3 | h3
        · left
          rw [postings, if_neg h2]
          exact h3
        · right
          exact h3

lemma postings_addEntryTerms_mono {idx : Index} {t : String} {j : ℕ}
    (terms : List String) (i : ℕ) (h : j ∈ postings idx t) :
    j ∈ postings (addEntryTerms idx i terms) t := by
  induction terms generalizing idx with
  | nil => exact h
  | cons t0 rest ih => exact ih (postings_indexAdd_mono t0 i h)

lemma postings_addEntryTerms_self {t : String} (terms : List String)
    (idx : Index) (i : ℕ) (ht : t ∈ terms) :
    i ∈ postings (addEntryTerms idx i terms) t := by
  induction terms generalizing idx with
  | nil => cases ht
  | cons t0 rest ih =>
    rcases List.mem_cons.mp ht with h | h
    · subst h
      exact postings_addEntryTerms_mono rest i (postings_indexAdd_self idx t i)
    · exact ih _ h

lemma postings_addEntryTerms_sub {t : String} {j : ℕ}
    {terms : List String} {idx : Index} {i : ℕ}
    (h : j ∈ postings (addEntryTerms idx i terms) t) :
    j ∈ postings idx t ∨ j = i := by
  induction terms generalizing idx with
  | nil => exact Or.inl h
  | cons t0 rest ih =>
    rcases ih h with h1 | h1
    · exact postings_indexAdd_sub h1
    · exact Or.inr h1

lemma postings_buildFold_mono {k : ℕ} {t : String} {j : ℕ}
    (pairs : List (ℕ × cacheEntry)) (idx : Index)
    (h : j ∈ postings idx t) :
    j ∈ postings (pairs.foldl
      (fun a p => addEntryTerms a p.1 (getTopK p.2.tfidfVector k)) idx) t := by
  induction pairs generalizing idx with
  | nil => exact h
  | cons p rest ih =>
    rw [List.foldl_cons]
    exact ih _ (postings_addEntryTerms_mono _ _ h)

lemma postings_buildFold_mem {k : ℕ} {t : String} {i : ℕ}
    {en : cacheEntry} (pairs : List (ℕ × cacheEntry)) (idx : Index)
    (hp : (i, en) ∈ pairs) (ht : t ∈ getTopK en.tfidfVector k) :
    i ∈ postings (pairs.foldl
      (fun a p => addEntryTerms a p.1 (getTopK p.2.tfidfVector k)) idx) t := by
  induction pairs generalizing idx with
  | nil => cases hp
  | cons p rest ih =>
    rcases List.mem_cons.mp hp with h | h
    · subst h
      rw [List.foldl_cons]
      exact postings_buildFold_mono rest _
        (postings_addEntryTerms_self _ idx i ht)
    · rw [List.foldl_cons]
      exact ih _ h

lemma postings_buildIndex_mem {entries : List cacheEntry} {k : ℕ}
    {i : ℕ} {en : cacheEntry} {t : String}
    (hget : entries.get? i = some en) (ht : t ∈ getTopK en.tfidfVector k) :
    i ∈ postings (buildIndex entries k) t := by
  have hp : (i, en) ∈ entries.enum := by
    rw [List.mk_mem_enum_iff_getElem?, ← List.get?_eq_getElem?]
    exact hget
  exact postings_buildFold_mem entries.enum [] hp ht

lemma postings_buildFold_bound {k : ℕ} {P : ℕ → Prop}
    (pairs : List (ℕ × cacheEntry)) (idx : Index)
    (hidx : ∀ t j, j ∈ postings idx t → P j)
    (hpairs : ∀ p ∈ pairs, P p.1) :
    ∀ t j, j ∈ postings (pairs.foldl
      (fun a p => addEntryTerms a p.1 (getTopK p.2.tfidfVector k)) idx) t →
      P j := by
  induction pairs generalizing idx with
  | nil => exact hidx
  | cons p rest ih =>
    intro t j h
    rw [List.foldl_cons] at h
    refine ih _ ?_ (fun p2 hp2 => hpairs p2 (List.mem_cons_of_mem _ hp2))
      t j h
    intro t2 j2 hj2
    rcases postings_addEntryTerms_sub hj2 with h2 | h2
    · exact hidx t2 j2 h2
    · exact h2 ▸ hpairs p (List.mem_cons_self _ _)

lemma postings_buildIndex_bound {entries : List cacheEntry} {k : ℕ}
    {t : String} {i : ℕ} (h : i ∈ postings (buildIndex entries k) t) :
    i < entries.length := by
  refine postings_buildFold_bound (P := fun j => j < entries.length)
    entries.enum [] ?_ ?_ t i h
  · intro t2 j hj
    cases hj
  · intro p hp
    have h2 : entries[p.1]? = some p.2 :=
      List.mk_mem_enum_iff_getElem?.mp (by simpa using hp)
    obtain ⟨hlt, _⟩ := List.getElem?_eq_some.mp h2
    exact hlt

lemma mem_candidatesOf {seg : l1Segment} {topTerms : List String} {i : ℕ} :
    i ∈ candidatesOf seg topTerms ↔
      ∃ t ∈ topTerms, i ∈ postings seg.index t := by
  unfold candidatesOf
  rw [List.mem_dedup, List.mem_flatten]
  constructor
  · rintro ⟨l, hl, hi⟩
    obtain ⟨t, ht, rfl⟩ := List.mem_map.mp hl
    exact ⟨t, ht, hi⟩
  · rintro ⟨t, ht, hi⟩
    exact ⟨postings seg.index t, List.mem_map.mpr ⟨t, ht, rfl⟩, hi⟩

lemma length_insertDesc (x : termScore) (l : List termScore) :
    (insertDesc x l).length = l.length + 1 := by
  induction l with
  | nil => rfl
  | cons y ys ih =>
    rw [insertDesc]
    by_cases h : y.score < x.score
    · rw [if_pos h]
      simp
    · rw [if_neg h]
      simp [ih]

lemma length_sortDesc (l : List termScore) :
    (sortDesc l).length = l.length := by
  unfold sortDesc
  induction l with
  | nil => rfl
  | cons x xs ih =>
    rw [List.foldr_cons, length_insertDesc, ih]
    rfl

lemma getTopK_ne_nil {v : SparseVec} {k : ℕ} (hv : v ≠ []) (hk : 0 < k) :
    getTopK v k ≠ [] := by
  unfold getTopK
  by_cases h : v.length ≤ k
  · rw [if_pos h]
    simpa using hv
  · rw [if_neg h]
    intro hc
    have h1 := congrArg List.length hc
    rw [List.length_map, List.length_take, length_sortDesc,
      List.length_map] at h1
    simp only [List.length_nil] at h1
    omega

lemma ne_nil_of_normASq_ne_zero {v : SparseVec}
    (h : normASq v v ≠ 0) : v ≠ [] := by
  intro hv
  subst hv
  exact h rfl

/-- C10.  Index bounds safety: every position posted by buildIndex is a
valid position into the indexed entry sequence, and consequently in any
well-formed cache every candidate position Find derives from a segment
index is in range for that segment's entries (so the candidate
dereference is total). -/
theorem buildIndex_postings_in_bounds :
    (∀ (entries : List cacheEntry) (k : ℕ) (t : String) (i : ℕ),
      i ∈ postings (buildIndex entries k) t → i < entries.length) ∧
    (∀ (c : InMemoryCache) (q : SparseVec), CacheWF c →
      ∀ seg ∈ c.l1Segments, ∀ i ∈ candidatesOf seg (getTopK q c.topK),
        i < seg.entries.length) := by
  constructor
  · intro entries k t i h
    exact postings_buildIndex_bound h
  · intro c q hwf seg hseg i hi
    obtain ⟨t, ht, hp⟩ := mem_candidatesOf.mp hi
    rw [hwf.2 seg hseg] at hp
    exact postings_buildIndex_bound hp

/-- Witness for buildIndex_postings_in_bounds: the single posting of a
one-entry segment is position 0, in range. -/
theorem buildIndex_postings_in_bounds_witness :
    (0 ∈ postings (buildIndex [⟨[("a", 1)], [1]⟩] 16) "a") ∧
      0 < ([⟨[("a", 1)], [1]⟩] : List cacheEntry).length := by
  have h : 0 ∈ postings (buildIndex [⟨[("a", 1)], [1]⟩] 16) "a" := by
    decide
  exact ⟨h, buildIndex_postings_in_bounds.1 _ 16 "a" 0 h⟩

/-! Well-formedness is established by the constructor and preserved by
every operation, and flush/compaction preserve the entry multiset. -/

lemma cacheWF_new : CacheWF NewInMemoryCache := by
  constructor
  · norm_num [NewInMemoryCache, defaultTopK]
  · intro seg hseg
    exact absurd hseg (by simp [NewInMemoryCache])

lemma cacheWF_set {c : InMemoryCache} (h : CacheWF c) (k : SparseVec)
    (e : List ℚ) (t : ℝ) : CacheWF (c.Set k e t) := by
  unfold CacheWF
  rw [Set_topK, Set_l1Segments]
  exact h

lemma cacheWF_flush {c : InMemoryCache} (h : CacheWF c) :
    CacheWF c.flushL0 := by
  unfold InMemoryCache.flushL0
  by_cases he : c.l0Entries.isEmpty
  · rw [if_pos he]
    exact h
  · rw [if_neg he]
    refine ⟨h.1, fun seg hseg => ?_⟩
    rcases List.mem_append.mp hseg with h2 | h2
    · exact h.2 seg h2
    · rw [List.mem_singleton.mp h2]
      rfl

lemma cacheWF_compact {c : InMemoryCache} (h : CacheWF c) :
    CacheWF c.compactL1 := by
  unfold InMemoryCache.compactL1
  by_cases hl : c.l1Segments.length < l1CompactionTrigger
  · rw [if_pos hl]
    exact h
  · rw [if_neg hl]
    refine ⟨h.1, fun seg hseg => ?_⟩
    rcases List.mem_cons.mp hseg with h2 | h2
    · rw [h2]
      rfl
    · exact h.2 seg (List.mem_of_mem_drop h2)

lemma multiset_coe_flatten (l : List (List cacheEntry)) :
    Multiset.ofList l.flatten = (l.map Multiset.ofList).sum := by
  induction l with
  | nil => rfl
  | cons x xs ih =>
    rw [List.flatten_cons, List.map_cons, List.sum_cons, ← ih,
      ← Multiset.coe_add]

lemma entriesMS_flush (c : InMemoryCache) :
    entriesMS c.flushL0 = entriesMS c := by
  unfold InMemoryCache.flushL0 entriesMS
  by_cases he : c.l0Entries.isEmpty
  · rw [if_pos he]
  · rw [if_neg he]
    simp only [List.map_append, List.map_cons, List.map_nil,
      List.sum_append, List.sum_cons, List.sum_nil]
    rw [show (([] : List cacheEntry) : Multiset cacheEntry) = 0 from rfl]
    rw [zero_add, add_zero]
    exact add_comm _ _

lemma entriesMS_compact (c : InMemoryCache) :
    entriesMS c.compactL1 = entriesMS c := by
  unfold InMemoryCache.compactL1 entriesMS
  by_cases hl : c.l1Segments.length < l1CompactionTrigger
  · rw [if_pos hl]
  · rw [if_neg hl]
    simp only [List.map_cons, List.sum_cons]
    rw [show ((((c.l1Segments.take l1CompactionTargetCount).map
        l1Segment.entries).flatten : List cacheEntry) : Multiset cacheEntry)
        = Multiset.ofList
          ((c.l1Segments.take l1CompactionTargetCount).map
            l1Segment.entries).flatten from rfl]
    rw [multiset_coe_flatten, List.map_map]
    rw [show Multiset.ofList ∘ l1Segment.entries
        = (fun s : l1Segment => (s.entries : Multiset cacheEntry)) from rfl]
    have hsplit : (c.l1Segments.map
        (fun s => (s.entries : Multiset cacheEntry))).sum =
        ((c.l1Segments.take l1CompactionTargetCount).map
          (fun s => (s.entries : Multiset cacheEntry))).sum +
        ((c.l1Segments.drop l1CompactionTargetCount).map
          (fun s => (s.entries : Multiset cacheEntry))).sum := by
      rw [← List.sum_append, ← List.map_append, List.take_append_drop]
    rw [hsplit, ← add_assoc]

/-- C3 counterexample: the zero (empty) key has cosine similarity 0 to
itself, so after inserting it (N = 1 distinct keys, empty sequence of
flushes and compactions) it is stored but not found at threshold 1.0 —
the literal reading of the claim fails for zero-norm keys. -/
theorem zero_key_not_refound :
    Stored (InMemoryCache.Set NewInMemoryCache [] [7] 1) [] [7] ∧
      InMemoryCache.Find (InMemoryCache.Set NewInMemoryCache [] [7] 1)
        [] 1 = none := by
  constructor
  · exact Or.inl (List.mem_singleton.mpr rfl)
  · have hz : CosineSimilarity [] [] = 0 := by
      have h0 : normASq ([] : SparseVec) ([] : SparseVec) = 0 := rfl
      unfold CosineSimilarity
      rw [if_pos (show normASq [] [] = 0 ∨ normBSq [] [] = 0 from Or.inl h0)]
    unfold InMemoryCache.Find
    rw [show findL0 [] 1
        (InMemoryCache.Set NewInMemoryCache [] [7] 1).l0Entries
        = none from by
      rw [show (InMemoryCache.Set NewInMemoryCache [] [7] 1).l0Entries
          = [⟨[], [7]⟩] from rfl]
      rw [findL0, if_neg (by rw [show ((⟨[], [7]⟩ : cacheEntry)).tfidfVector
          = [] from rfl, hz]; norm_num), findL0]]
    rfl

lemma find_self_isSome {c : InMemoryCache} {q : SparseVec} {e : List ℚ}
    (hwf : CacheWF c) (hst : Stored c q e) (hnz : normASq q q ≠ 0) :
    (c.Find q 1).isSome := by
  have hcos : CosineSimilarity q q ≥ (1 : ℝ) :=
    ge_of_eq (cosineSimilarity_self hnz)
  rcases hst with hl0 | ⟨seg, hseg, hmem⟩
  · unfold InMemoryCache.Find
    cases h0 : findL0 q 1 c.l0Entries with
    | some r => rfl
    | none =>
      have h1 := findL0_isSome hl0 hcos
      rw [h0] at h1
      cases h1
  · unfold InMemoryCache.Find
    cases h0 : findL0 q 1 c.l0Entries with
    | some r => rfl
    | none =>
      dsimp only
      apply findL1_isSome (List.mem_reverse.mpr hseg)
      obtain ⟨n, hn⟩ := List.get_of_mem hmem
      have hget : seg.entries.get? (n : ℕ) = some ⟨q, e⟩ := by
        rw [List.get?_eq_get n.2, hn]
      obtain ⟨t0, ht0⟩ :=
        List.exists_mem_of_ne_nil _
          (getTopK_ne_nil (ne_nil_of_normASq_ne_zero hnz) hwf.1)
      have hpost : (n : ℕ) ∈ postings (buildIndex seg.entries c.topK) t0 :=
        postings_buildIndex_mem hget ht0
      have hc : (n : ℕ) ∈ candidatesOf seg (getTopK q c.topK) :=
        mem_candidatesOf.mpr ⟨t0, ht0, by rw [hwf.2 seg hseg]; exact hpost⟩
      exact scanCandidates_isSome hc hget hcos

/-- C3 (amended).  Lossless flush and compaction: the multiset of
entries visible to Find is unchanged by flushL0 and by compactL1;
well-formedness holds initially and is preserved by Set, flushL0 and
compactL1, so after inserting any entries and running any sequence of
flushes and compactions every stored key whose vector has nonzero norm
is still found by Find at threshold 1.0 (a zero-norm key has cosine
similarity 0 even to itself, so it is not found at threshold 1.0). -/
theorem flush_compaction_lossless :
    (∀ c : InMemoryCache, entriesMS c.flushL0 = entriesMS c) ∧
    (∀ c : InMemoryCache, entriesMS c.compactL1 = entriesMS c) ∧
    CacheWF NewInMemoryCache ∧
    (∀ c : InMemoryCache, CacheWF c →
      (∀ (k : SparseVec) (e : List ℚ) (t : ℝ), CacheWF (c.Set k e t)) ∧
        CacheWF c.flushL0 ∧ CacheWF c.compactL1) ∧
    (∀ (c : InMemoryCache) (q : SparseVec) (e : List ℚ), CacheWF c →
      Stored c q e → normASq q q ≠ 0 → (c.Find q 1).isSome) := by
  refine ⟨entriesMS_flush, entriesMS_compact, cacheWF_new,
    fun c hwf => ⟨fun k e t => cacheWF_set hwf k e t,
      cacheWF_flush hwf, cacheWF_compact hwf⟩,
    fun c q e hwf hst hnz => find_self_isSome hwf hst hnz⟩

/-- Witness for flush_compaction_lossless: one entry inserted into a
fresh cache and flushed into an L1 segment is still found by its own
key at threshold 1.0. -/
theorem flush_compaction_lossless_witness :
    CacheWF ((InMemoryCache.Set NewInMemoryCache
      [("a", 1)] [2] 1).flushL0) ∧
    Stored ((InMemoryCache.Set NewInMemoryCache
      [("a", 1)] [2] 1).flushL0) [("a", 1)] [2] ∧
    normASq [("a", 1)] [("a", 1)] ≠ 0 ∧
    (((InMemoryCache.Set NewInMemoryCache
      [("a", 1)] [2] 1).flushL0).Find [("a", 1)] 1).isSome := by
  have hwf : CacheWF ((InMemoryCache.Set NewInMemoryCache
      [("a", 1)] [2] 1).flushL0) :=
    cacheWF_flush (cacheWF_set cacheWF_new [("a", 1)] [2] 1)
  have hst : Stored ((InMemoryCache.Set NewInMemoryCache
      [("a", 1)] [2] 1).flushL0) [("a", 1)] [2] := by
    refine Or.inr ⟨⟨[⟨[("a", 1)], [2]⟩],
      buildIndex [⟨[("a", 1)], [2]⟩] 16⟩, ?_, by simp⟩
    rw [show ((InMemoryCache.Set NewInMemoryCache
        [("a", 1)] [2] 1).flushL0).l1Segments
      = [⟨[⟨[("a", 1)], [2]⟩], buildIndex [⟨[("a", 1)], [2]⟩] 16⟩]
      from rfl]
    simp
  have hnz : normASq [("a", 1)] [("a", 1)] ≠ 0 := by
    norm_num [normASq, allWords, keys, lookup, List.dedup]
  exact ⟨hwf, hst, hnz,
    flush_compaction_lossless.2.2.2.2 _ _ [2] hwf hst hnz⟩

/-- C1 counterexample: an entry whose key is the empty (zero-norm)
vector is flushed into an L1 segment; its getTopK list is empty, so
buildIndex gives it no posting and no query can reach it through the
index.  The query with term a has cosine similarity 0 to it, which
meets a threshold of 0, yet Find misses: the claim is false for entries
an L1 index never posted. -/
theorem find_misses_similar_l1_entry :
    Stored ((InMemoryCache.Set NewInMemoryCache [] [7] 1).flushL0)
      [] [7] ∧
    CosineSimilarity [("a", 1)] [] ≥ (0 : ℝ) ∧
    InMemoryCache.Find ((InMemoryCache.Set NewInMemoryCache
      [] [7] 1).flushL0) [("a", 1)] 0 = none := by
  refine ⟨?_, ?_, ?_⟩
  · refine Or.inr ⟨⟨[⟨[], [7]⟩], buildIndex [⟨[], [7]⟩] 16⟩, ?_, by simp⟩
    rw [show ((InMemoryCache.Set NewInMemoryCache [] [7] 1).flushL0).l1Segments
      = [⟨[⟨[], [7]⟩], buildIndex [⟨[], [7]⟩] 16⟩] from rfl]
    simp
  · have h0 : normBSq [("a", 1)] ([] : SparseVec) = 0 := by
      norm_num [normBSq, allWords, keys, lookup, List.dedup]
    unfold CosineSimilarity
    rw [if_pos (show normASq [("a", 1)] [] = 0 ∨ normBSq [("a", 1)] [] = 0
      from Or.inr h0)]
  · rfl

/-- C1 (amended).  Similarity correctness of Find holds for every entry
in L0, and for an entry in an L1 segment exactly when the segment index
makes it a candidate for the query's top-K terms: under that
reachability condition Find returns found together with the copied
embedding of some stored key within the threshold.  (Entries in L1 none
of whose indexed top-K terms meet the query's top-K terms can be missed
— the documented recall trade-off of the top-K indexing scheme.) -/
theorem find_similarity_correct_reachable (c : InMemoryCache)
    (q : SparseVec) (T : ℝ) (k : SparseVec) (e : List ℚ)
    (hreach : (⟨k, e⟩ : cacheEntry) ∈ c.l0Entries ∨
      ∃ seg ∈ c.l1Segments, ∃ i, seg.entries.get? i = some ⟨k, e⟩ ∧
        i ∈ candidatesOf seg (getTopK q c.topK))
    (hge : CosineSimilarity q k ≥ T) :
    ∃ kk ee, Stored c kk ee ∧ CosineSimilarity q kk ≥ T ∧
      c.Find q T = some (copyEmbedding ee) := by
  have hsome : (c.Find q T).isSome := by
    rcases hreach with hl0 | ⟨seg, hseg, i, hget, hcand⟩
    · unfold InMemoryCache.Find
      cases h0 : findL0 q T c.l0Entries with
      | some r => rfl
      | none =>
        have h1 := findL0_isSome hl0 hge
        rw [h0] at h1
        cases h1
    · unfold InMemoryCache.Find
      cases h0 : findL0 q T c.l0Entries with
      | some r => rfl
      | none =>
        dsimp only
        exact findL1_isSome (List.mem_reverse.mpr hseg)
          (scanCandidates_isSome hcand hget hge)
  obtain ⟨out, hout⟩ := Option.isSome_iff_exists.mp hsome
  obtain ⟨kk, ee, hst, hgee, he⟩ := find_sound hout
  exact ⟨kk, ee, hst, hgee, by rw [hout, he]⟩

/-- Witness for find_similarity_correct_reachable: a key with one term
sits in L0; querying it at threshold 1 finds it. -/
theorem find_similarity_correct_reachable_witness :
    ((⟨[("a", 1)], [5]⟩ : cacheEntry)
        ∈ (⟨[⟨[("a", 1)], [5]⟩], [], 0, 16⟩ : InMemoryCache).l0Entries ∨
      ∃ seg ∈ (⟨[⟨[("a", 1)], [5]⟩], [], 0, 16⟩ :
          InMemoryCache).l1Segments, ∃ i,
        seg.entries.get? i = some ⟨[("a", 1)], [5]⟩ ∧
          i ∈ candidatesOf seg (getTopK [("a", 1)] 16)) ∧
    CosineSimilarity [("a", 1)] [("a", 1)] ≥ (1 : ℝ) ∧
    ∃ kk ee, Stored ⟨[⟨[("a", 1)], [5]⟩], [], 0, 16⟩ kk ee ∧
      CosineSimilarity [("a", 1)] kk ≥ (1 : ℝ) ∧
      InMemoryCache.Find ⟨[⟨[("a", 1)], [5]⟩], [], 0, 16⟩ [("a", 1)] 1
        = some (copyEmbedding ee) := by
  have hreach : (⟨[("a", 1)], [5]⟩ : cacheEntry)
      ∈ (⟨[⟨[("a", 1)], [5]⟩], [], 0, 16⟩ : InMemoryCache).l0Entries ∨
      ∃ seg ∈ (⟨[⟨[("a", 1)], [5]⟩], [], 0, 16⟩ :
          InMemoryCache).l1Segments, ∃ i,
        seg.entries.get? i = some ⟨[("a", 1)], [5]⟩ ∧
          i ∈ candidatesOf seg (getTopK [("a", 1)] 16) :=
    Or.inl (by simp)
  have hge : CosineSimilarity [("a", 1)] [("a", 1)] ≥ (1 : ℝ) := by
    rw [cosineSimilarity_self (v := [("a", 1)])
      (by norm_num [normASq, allWords, keys, lookup, List.dedup])]
  exact ⟨hreach, hge, find_similarity_correct_reachable
    ⟨[⟨[("a", 1)], [5]⟩], [], 0, 16⟩ [("a", 1)] 1 [("a", 1)] [5]
    hreach hge⟩

/-- C4.  Close idempotence fails in the code: the first Close of a
fresh InMemoryCache (and of a fresh adaptiveCacheManager) succeeds, but
a second Close reaches close() on an already-closed channel — a Go
runtime panic, modelled as none — contradicting the claim's required
no-panic behaviour (the spec itself flags this as a bug to fix). -/
theorem double_close_panics :
    (closeCache ⟨⟨false⟩⟩).isSome ∧
    (closeCache ⟨⟨false⟩⟩).bind closeCache = none ∧
    (closeMgr ⟨⟨false⟩, ⟨false⟩, ⟨false⟩⟩).isSome ∧
    (closeMgr ⟨⟨false⟩, ⟨false⟩, ⟨false⟩⟩).bind closeMgr = none := by
  refine ⟨rfl, rfl, rfl, rfl⟩

/-- C5 counterexample: Set stores the key map by reference, so mutating
the caller's key map afterwards changes the stored entry's key — the
claimed deep copy of the key does not happen in the code. -/
theorem set_key_not_copied :
    (setAppend ⟨[[("a", 1)]], [[1]]⟩ [] 0 0).2 = [⟨0, 1⟩] ∧
    readMap (setAppend ⟨[[("a", 1)]], [[1]]⟩ [] 0 0).1 0 = [("a", 1)] ∧
    readMap (writeMap (setAppend ⟨[[("a", 1)]], [[1]]⟩ [] 0 0).1 0
      [("b", 2)]) 0 = [("b", 2)] ∧
    ([("b", 2)] : SparseVec) ≠ [("a", 1)] := by
  refine ⟨rfl, rfl, rfl, by simp⟩

/-- C5 (amended).  Set deep-copies the embedding (the stored cell is
fresh, so later mutation of the caller's embedding slice does not
change the stored embedding value), while the key map is stored by
reference; Find likewise returns the embedding through copyEmbedding. -/
theorem set_embedding_deep_copied (h : Heap) (l0 : List entryRefs)
    (kr er : ℕ) (v2 : List ℚ) (her : er < h.slices.length) :
    (setAppend h l0 kr er).2 = l0 ++ [⟨kr, h.slices.length⟩] ∧
    readSlice (writeSlice (setAppend h l0 kr er).1 er v2)
      h.slices.length = readSlice h er := by
  refine ⟨rfl, ?_⟩
  have hne : er ≠ h.slices.length := Nat.ne_of_lt her
  show (((h.slices ++ [readSlice h er]).set er v2).get?
      h.slices.length).getD [] = readSlice h er
  rw [List.get?_eq_getElem?, List.getElem?_set_ne hne,
    List.getElem?_concat_length, Option.getD_some]

/-- Witness for set_embedding_deep_copied: one slice cell, copied on
Set; overwriting the caller's cell leaves the stored copy intact. -/
theorem set_embedding_deep_copied_witness :
    0 < (⟨[], [[3]]⟩ : Heap).slices.length ∧
    ((setAppend ⟨[], [[3]]⟩ [] 0 0).2 = [] ++ [⟨0, 1⟩] ∧
      readSlice (writeSlice (setAppend ⟨[], [[3]]⟩ [] 0 0).1 0 [9]) 1
        = readSlice ⟨[], [[3]]⟩ 0) := by
  refine ⟨by norm_num, ?_⟩
  exact set_embedding_deep_copied ⟨[], [[3]]⟩ [] 0 0 [9] (by norm_num)

/-- C7.  One-way activation: a fresh manager reports not activated, and
once the flag is true every step of the system — QueueSet, Set, Find,
AnalyzeSimilarity, async writes, ticker polls, flushes, compactions —
leaves it true; it never transitions back. -/
theorem activation_one_way :
    (∀ (c : InMemoryCache) (simT : ℝ) (actT : ℤ),
      (NewAdaptiveCacheManagerState c simT actT).activated = false) ∧
    (∀ (s : MgrState) (step : MgrStep), s.activated = true →
      (mgrStep s step).activated = true) := by
  constructor
  · intro c simT actT
    rfl
  · intro s step h
    cases step with
    | queueSetStep k e => exact h
    | directSetStep k e t => exact h
    | findStep k t => exact h
    | analyzeStep t => exact h
    | writerStep =>
      show (mgrStep s MgrStep.writerStep).activated = true
      unfold mgrStep
      cases s.setQueue with
      | nil => exact h
      | cons p rest => exact h
    | tickerStep =>
      show (mgrStep s MgrStep.tickerStep).activated = true
      unfold mgrStep
      rw [if_pos h]
      exact h
    | flushStep => exact h
    | compactStep => exact h

/-- Witness for activation_one_way: an activated manager stays
activated across a ticker poll. -/
theorem activation_one_way_witness :
    (⟨true, [], NewInMemoryCache, 0, 0⟩ : MgrState).activated = true ∧
    (mgrStep ⟨true, [], NewInMemoryCache, 0, 0⟩
      MgrStep.tickerStep).activated = true :=
  ⟨rfl, activation_one_way.2 ⟨true, [], NewInMemoryCache, 0, 0⟩
    MgrStep.tickerStep rfl⟩

/-- C8.  QueueSet overflow behaviour: a QueueSet step is total (never
blocks, never fails), never touches the wrapped cache or the activation
flag; with a free slot (queue shorter than the 1024 capacity) the entry
is appended, and on a full queue the entry is silently dropped — the
queue, and hence the cache, are left exactly as they were. -/
theorem queueset_nonblocking_drop (s : MgrState) (k : SparseVec)
    (e : List ℚ) :
    (mgrStep s (MgrStep.queueSetStep k e)).cache = s.cache ∧
    (mgrStep s (MgrStep.queueSetStep k e)).activated = s.activated ∧
    (s.setQueue.length < setQueueCapacity →
      (mgrStep s (MgrStep.queueSetStep k e)).setQueue
        = s.setQueue ++ [(k, e)]) ∧
    (¬ s.setQueue.length < setQueueCapacity →
      (mgrStep s (MgrStep.queueSetStep k e)).setQueue = s.setQueue) := by
  refine ⟨rfl, rfl, ?_, ?_⟩
  · intro hlt
    show queueSet s.setQueue k e = s.setQueue ++ [(k, e)]
    rw [queueSet, if_pos hlt]
  · intro hge
    show queueSet s.setQueue k e = s.setQueue
    rw [queueSet, if_neg hge]

/-- Witness for queueset_nonblocking_drop: an empty queue accepts the
entry; a queue at capacity 1024 drops it. -/
theorem queueset_nonblocking_drop_witness :
    (([] : List (SparseVec × List ℚ)).length < setQueueCapacity ∧
      (mgrStep ⟨false, [], NewInMemoryCache, 0, 0⟩
        (MgrStep.queueSetStep [("a", 1)] [1])).setQueue
        = [] ++ [([("a", 1)], [1])]) ∧
    (¬ (List.replicate 1024
        (([("a", 1)] : SparseVec), ([1] : List ℚ))).length
          < setQueueCapacity ∧
      (mgrStep ⟨false, List.replicate 1024 ([("a", 1)], [1]),
        NewInMemoryCache, 0, 0⟩
        (MgrStep.queueSetStep [("b", 2)] [2])).setQueue
        = List.replicate 1024 ([("a", 1)], [1])) := by
  constructor
  · refine ⟨by norm_num [setQueueCapacity], ?_⟩
    exact (queueset_nonblocking_drop ⟨false, [], NewInMemoryCache, 0, 0⟩
      [("a", 1)] [1]).2.2.1 (by norm_num [setQueueCapacity])
  · refine ⟨by norm_num [List.length_replicate, setQueueCapacity], ?_⟩
    exact (queueset_nonblocking_drop ⟨false,
      List.replicate 1024 ([("a", 1)], [1]), NewInMemoryCache, 0, 0⟩
      [("b", 2)] [2]).2.2.2
      (by norm_num [List.length_replicate, setQueueCapacity])
